import Mathlib

/-!
# Verification of the hybrid retrieval engine (`src/backend/rag_engine.py`)

This file gives a shallow embedding of the retrieval core `RAGEngine`
(`src/backend/rag_engine.py`) and proves/refutes the specification claims
about it.  Python floats are modelled as exact rationals (`ℚ`); the external
collaborators of the engine (the `rank_bm25` scorer, the optional
`FlagEmbedding` encoder, `langdetect`, `math.sqrt`, `str.lower`) are modelled
as explicit function parameters gathered in a `Collab` record, with fallible
calls returning `Except`.
-/

/-- Python `str.split()` with no separator: split on runs of whitespace,
never producing empty tokens.  Auxiliary recursion over the character list,
carrying the (reversed) current token. -/
def splitWSAux : List Char → List Char → List (List Char)
  | [], acc => if acc = [] then [] else [acc.reverse]
  | c :: cs, acc =>
    if c.isWhitespace then
      if acc = [] then splitWSAux cs [] else acc.reverse :: splitWSAux cs []
    else splitWSAux cs (c :: acc)

/-- Python `text.split()` (whitespace split, as used at rag_engine.py
lines 32, 45, 56 and 87). -/
def pySplit (s : String) : List String :=
  (splitWSAux s.data []).map String.mk

theorem splitWSAux_ne_nil : ∀ (cs acc : List Char), ∀ l ∈ splitWSAux cs acc, l ≠ [] := by
  intro cs
  induction cs with
  | nil =>
    intro acc l hl
    by_cases h : acc = [] <;> simp [splitWSAux, h] at hl
    subst hl
    simpa using h
  | cons c cs ih =>
    intro acc l hl
    by_cases hw : c.isWhitespace
    · by_cases h : acc = []
      · exact ih [] l (by simpa [splitWSAux, hw, h] using hl)
      · simp only [splitWSAux, hw, if_true, h, if_false] at hl
        rcases List.mem_cons.mp hl with rfl | hl
        · simpa using h
        · exact ih [] l hl
    · exact ih (c :: acc) l (by simpa [splitWSAux, hw] using hl)

/-- Tokens produced by `pySplit` are never the empty string. -/
theorem pySplit_ne_empty (s : String) : ∀ t ∈ pySplit s, t ≠ "" := by
  intro t ht
  rcases List.mem_map.mp ht with ⟨l, hl, rfl⟩
  have hne := splitWSAux_ne_nil s.data [] l hl
  intro h
  have h2 : String.mk l = String.mk [] := h
  exact hne (by injection h2)

/-- Python list slicing `xs[:k]`: for `k ≥ 0` the first `k` elements, for
`k < 0` all but the last `|k|` elements (rag_engine.py line 78). -/
def pyTake (k : Int) (xs : List α) : List α :=
  if 0 ≤ k then xs.take k.toNat else xs.take (xs.length - (-k).toNat)

theorem pyTake_mem {k : Int} {xs : List α} {a : α} (h : a ∈ pyTake k xs) : a ∈ xs := by
  unfold pyTake at h
  split at h <;> exact List.mem_of_mem_take h

theorem pyTake_length (k : Int) (xs : List α) (hk : 1 ≤ k) :
    (pyTake k xs).length = min k.toNat xs.length := by
  unfold pyTake
  rw [if_pos (le_trans (by norm_num) hk)]
  exact List.length_take _ _

theorem pyTake_pairwise {k : Int} {xs : List α} {R : α → α → Prop}
    (h : xs.Pairwise R) : (pyTake k xs).Pairwise R := by
  unfold pyTake
  split <;> exact h.sublist (List.take_sublist _ _)

/-- Code-point lexicographic order on character lists, i.e. how Python
compares strings (used by `sorted` on the highlight set). -/
def charListLt : List Char → List Char → Bool
  | [], [] => false
  | [], _ :: _ => true
  | _ :: _, [] => false
  | a :: as, b :: bs =>
    if a < b then true
    else if b < a then false
    else charListLt as bs

/-- Python string comparison `s < t` (code-point lexicographic). -/
def pyStrLt (s t : String) : Prop := charListLt s.data t.data = true

instance (s t : String) : Decidable (pyStrLt s t) := by
  unfold pyStrLt; infer_instance

theorem charListLt_irrefl : ∀ l : List Char, charListLt l l = false := by
  intro l
  induction l with
  | nil => rfl
  | cons a as ih => simp [charListLt, ih]

theorem charListLt_trans : ∀ {a b c : List Char},
    charListLt a b = true → charListLt b c = true → charListLt a c = true := by
  intro a
  induction a with
  | nil =>
    intro b c hab hbc
    cases b with
    | nil => exact hbc
    | cons y ys => cases c with
      | nil => simp [charListLt] at hbc
      | cons z zs => rfl
  | cons x xs ih =>
    intro b c hab hbc
    cases b with
    | nil => simp [charListLt] at hab
    | cons y ys =>
      cases c with
      | nil => simp [charListLt] at hbc
      | cons z zs =>
        simp only [charListLt] at hab hbc ⊢
        by_cases hxy : x < y
        · by_cases hyz : y < z
          · simp [lt_trans hxy hyz]
          · by_cases hzy : z < y
            · simp [charListLt, hyz, hzy] at hbc
            · have : y = z := le_antisymm (not_lt.mp hzy) (not_lt.mp hyz)
              subst this
              simp [hxy]
        · by_cases hyx : y < x
          · simp [charListLt, hxy, hyx] at hab
          · have hxyeq : x = y := le_antisymm (not_lt.mp hyx) (not_lt.mp hxy)
            subst hxyeq
            simp only [charListLt, if_neg hxy, if_neg hyx] at hab
            by_cases hyz : x < z
            · simp [hyz]
            · by_cases hzy : z < x
              · simp [charListLt, hyz, hzy] at hbc
              · have : x = z := le_antisymm (not_lt.mp hzy) (not_lt.mp hyz)
                subst this
                simp only [charListLt, if_neg hyz, if_neg hzy] at hbc ⊢
                exact ih hab hbc

theorem charListLt_eq_of_not : ∀ {a b : List Char},
    charListLt a b = false → charListLt b a = false → a = b := by
  intro a
  induction a with
  | nil =>
    intro b hab _
    cases b with
    | nil => rfl
    | cons y ys => simp [charListLt] at hab
  | cons x xs ih =>
    intro b hab hba
    cases b with
    | nil => simp [charListLt] at hba
    | cons y ys =>
      simp only [charListLt] at hab hba
      by_cases hxy : x < y
      · simp [hxy] at hab
      · by_cases hyx : y < x
        · simp [hyx, hxy] at hba
        · have hxyeq : x = y := le_antisymm (not_lt.mp hyx) (not_lt.mp hxy)
          subst hxyeq
          simp only [if_neg hxy] at hab hba
          rw [ih hab hba]

theorem pyStrLt_total (s t : String) :
    (pyStrLt s t ∨ s = t) ∨ (pyStrLt t s ∨ t = s) := by
  unfold pyStrLt
  by_cases h1 : charListLt s.data t.data = true
  · exact Or.inl (Or.inl h1)
  · by_cases h2 : charListLt t.data s.data = true
    · exact Or.inr (Or.inl h2)
    · refine Or.inl (Or.inr ?_)
      have := charListLt_eq_of_not
        (Bool.not_eq_true _ ▸ h1 : charListLt s.data t.data = false)
        (Bool.not_eq_true _ ▸ h2 : charListLt t.data s.data = false)
      have hs : s = String.mk s.data := rfl
      have ht : t = String.mk t.data := rfl
      rw [hs, ht, this]

theorem pyStrLt_trans {s t u : String} (h1 : pyStrLt s t) (h2 : pyStrLt t u) :
    pyStrLt s u := charListLt_trans h1 h2

theorem pyStrLt_irrefl (s : String) : ¬ pyStrLt s s := by
  unfold pyStrLt
  simp [charListLt_irrefl]

/-- Insert a string into an ascending (code-point lexicographic) list;
helper for modelling Python `sorted` on a set of strings. -/
def insertAsc (s : String) : List String → List String
  | [] => [s]
  | t :: rest => if pyStrLt s t ∨ s = t then s :: t :: rest else t :: insertAsc s rest

/-- Python `sorted(...)` on a duplicate-free collection of strings
(rag_engine.py line 88): the unique ascending reordering, realised as an
insertion sort by code-point order. -/
def pySorted : List String → List String
  | [] => []
  | s :: rest => insertAsc s (pySorted rest)

theorem mem_insertAsc {a s : String} {l : List String} :
    a ∈ insertAsc s l ↔ a = s ∨ a ∈ l := by
  induction l with
  | nil => simp [insertAsc]
  | cons t rest ih =>
    by_cases h : pyStrLt s t ∨ s = t
    · simp [insertAsc, h]
    · simp only [insertAsc, if_neg h, List.mem_cons, ih]
      tauto

theorem mem_pySorted {a : String} {l : List String} : a ∈ pySorted l ↔ a ∈ l := by
  induction l with
  | nil => simp [pySorted]
  | cons s rest ih => simp [pySorted, mem_insertAsc, ih]

theorem insertAsc_pairwise {s : String} {l : List String}
    (h : l.Pairwise (fun a b => pyStrLt a b ∨ a = b)) :
    (insertAsc s l).Pairwise (fun a b => pyStrLt a b ∨ a = b) := by
  induction l with
  | nil => simp [insertAsc]
  | cons t rest ih =>
    rcases List.pairwise_cons.mp h with ⟨hhead, htail⟩
    by_cases hc : pyStrLt s t ∨ s = t
    · rw [insertAsc, if_pos hc]
      refine List.pairwise_cons.mpr ⟨?_, h⟩
      intro b hb
      rcases List.mem_cons.mp hb with rfl | hb
      · exact hc
      · have htb : pyStrLt t b ∨ t = b := hhead b hb
        rcases hc with hc | hc
        · rcases htb with htb | htb
          · exact Or.inl (pyStrLt_trans hc htb)
          · exact Or.inl (htb ▸ hc)
        · rcases htb with htb | htb
          · exact Or.inl (by rw [hc]; exact htb)
          · exact Or.inr (hc.trans htb)
    · rw [insertAsc, if_neg hc]
      refine List.pairwise_cons.mpr ⟨?_, ih htail⟩
      intro b hb
      rcases mem_insertAsc.mp hb with hbs | hb
      · subst hbs
        rcases pyStrLt_total t b with h' | h'
        · exact h'
        · exact absurd h' hc
      · exact hhead b hb

theorem pySorted_pairwise (l : List String) :
    (pySorted l).Pairwise (fun a b => pyStrLt a b ∨ a = b) := by
  induction l with
  | nil => simp [pySorted]
  | cons s rest ih => exact insertAsc_pairwise ih

theorem insertAsc_nodup {s : String} {l : List String} (hs : s ∉ l) (h : l.Nodup) :
    (insertAsc s l).Nodup := by
  induction l with
  | nil => simp [insertAsc]
  | cons t rest ih =>
    rcases List.nodup_cons.mp h with ⟨ht, hrest⟩
    have hs' : s ∉ rest := fun hc => hs (List.mem_cons_of_mem _ hc)
    have hst : s ≠ t := fun hc => hs (hc ▸ List.mem_cons_self _ _)
    by_cases hc : pyStrLt s t ∨ s = t
    · rw [insertAsc, if_pos hc]
      exact List.nodup_cons.mpr ⟨hs, h⟩
    · rw [insertAsc, if_neg hc]
      refine List.nodup_cons.mpr ⟨?_, ih hs' hrest⟩
      intro hmem
      rcases mem_insertAsc.mp hmem with h' | h'
      · exact hst h'.symm
      · exact ht h'

theorem pySorted_nodup {l : List String} (h : l.Nodup) : (pySorted l).Nodup := by
  induction l with
  | nil => simp [pySorted]
  | cons s rest ih =>
    rcases List.nodup_cons.mp h with ⟨hs, hrest⟩
    exact insertAsc_nodup (fun hc => hs (mem_pySorted.mp hc)) (ih hrest)

/-- A sorted deduplicated list is strictly ascending. -/
theorem pySorted_pairwise_lt {l : List String} (h : l.Nodup) :
    (pySorted l).Pairwise pyStrLt := by
  have h1 := pySorted_pairwise l
  have h2 : (pySorted l).Pairwise (fun a b : String => a ≠ b) := pySorted_nodup h
  exact (h1.and h2).imp (fun hab => by
    rcases hab with ⟨hle | heq, hne⟩
    · exact hle
    · exact absurd heq hne)

/-- The relation by which Python's stable descending sort at rag_engine.py
lines 74-78 orders the document indices: strictly larger fused score first,
and ascending original index among equal scores. -/
def rankLE (key : Nat → ℚ) (i j : Nat) : Prop :=
  key j < key i ∨ (key i = key j ∧ i ≤ j)

instance (key : Nat → ℚ) (i j : Nat) : Decidable (rankLE key i j) := by
  unfold rankLE; infer_instance

theorem rankLE_total (key : Nat → ℚ) (i j : Nat) : rankLE key i j ∨ rankLE key j i := by
  unfold rankLE
  rcases lt_trichotomy (key i) (key j) with h | h | h
  · exact Or.inr (Or.inl h)
  · rcases Nat.le_total i j with hij | hij
    · exact Or.inl (Or.inr ⟨h, hij⟩)
    · exact Or.inr (Or.inr ⟨h.symm, hij⟩)
  · exact Or.inl (Or.inl h)

theorem rankLE_trans {key : Nat → ℚ} {i j k : Nat}
    (h1 : rankLE key i j) (h2 : rankLE key j k) : rankLE key i k := by
  unfold rankLE at h1 h2 ⊢
  rcases h1 with h1 | ⟨h1e, h1le⟩
  · rcases h2 with h2 | ⟨h2e, _⟩
    · exact Or.inl (lt_trans h2 h1)
    · exact Or.inl (h2e ▸ h1)
  · rcases h2 with h2 | ⟨h2e, h2le⟩
    · exact Or.inl (h1e ▸ h2)
    · exact Or.inr ⟨h1e.trans h2e, le_trans h1le h2le⟩

/-- Insert an index into a list ordered by `rankLE`. -/
def insertRanked (key : Nat → ℚ) (i : Nat) : List Nat → List Nat
  | [] => [i]
  | j :: rest => if rankLE key i j then i :: j :: rest else j :: insertRanked key i rest

/-- `sorted(indices, key=fused, reverse=True)` (rag_engine.py lines 74-78):
Python's sort is stable, so on the ascending index list it returns the unique
permutation ordered by descending fused score with ascending original index
as the tie-break; realised as an insertion sort by that total order. -/
def pySortDesc (key : Nat → ℚ) : List Nat → List Nat
  | [] => []
  | i :: rest => insertRanked key i (pySortDesc key rest)

theorem mem_insertRanked {key : Nat → ℚ} {a i : Nat} {l : List Nat} :
    a ∈ insertRanked key i l ↔ a = i ∨ a ∈ l := by
  induction l with
  | nil => simp [insertRanked]
  | cons j rest ih =>
    by_cases h : rankLE key i j
    · simp [insertRanked, h]
    · simp only [insertRanked, if_neg h, List.mem_cons, ih]
      tauto

theorem mem_pySortDesc {key : Nat → ℚ} {a : Nat} {l : List Nat} :
    a ∈ pySortDesc key l ↔ a ∈ l := by
  induction l with
  | nil => simp [pySortDesc]
  | cons i rest ih => simp [pySortDesc, mem_insertRanked, ih]

theorem length_insertRanked (key : Nat → ℚ) (i : Nat) (l : List Nat) :
    (insertRanked key i l).length = l.length + 1 := by
  induction l with
  | nil => rfl
  | cons j rest ih =>
    by_cases h : rankLE key i j
    · simp [insertRanked, h]
    · simp [insertRanked, h, ih]

theorem length_pySortDesc (key : Nat → ℚ) (l : List Nat) :
    (pySortDesc key l).length = l.length := by
  induction l with
  | nil => rfl
  | cons i rest ih => simp [pySortDesc, length_insertRanked, ih]

theorem insertRanked_pairwise {key : Nat → ℚ} {i : Nat} {l : List Nat}
    (h : l.Pairwise (rankLE key)) :
    (insertRanked key i l).Pairwise (rankLE key) := by
  induction l with
  | nil => simp [insertRanked]
  | cons j rest ih =>
    rcases List.pairwise_cons.mp h with ⟨hhead, htail⟩
    by_cases hc : rankLE key i j
    · rw [insertRanked, if_pos hc]
      refine List.pairwise_cons.mpr ⟨?_, h⟩
      intro b hb
      rcases List.mem_cons.mp hb with rfl | hb
      · exact hc
      · exact rankLE_trans hc (hhead b hb)
    · rw [insertRanked, if_neg hc]
      refine List.pairwise_cons.mpr ⟨?_, ih htail⟩
      intro b hb
      rcases mem_insertRanked.mp hb with hbs | hb
      · subst hbs
        rcases rankLE_total key j b with h' | h'
        · exact h'
        · exact absurd h' hc
      · exact hhead b hb

theorem pySortDesc_pairwise (key : Nat → ℚ) (l : List Nat) :
    (pySortDesc key l).Pairwise (rankLE key) := by
  induction l with
  | nil => simp [pySortDesc]
  | cons i rest ih => exact insertRanked_pairwise ih

theorem insertRanked_nodup {key : Nat → ℚ} {i : Nat} {l : List Nat}
    (hi : i ∉ l) (h : l.Nodup) : (insertRanked key i l).Nodup := by
  induction l with
  | nil => simp [insertRanked]
  | cons j rest ih =>
    rcases List.nodup_cons.mp h with ⟨hj, hrest⟩
    have hi' : i ∉ rest := fun hc => hi (List.mem_cons_of_mem _ hc)
    have hij : i ≠ j := fun hc => hi (hc ▸ List.mem_cons_self _ _)
    by_cases hc : rankLE key i j
    · rw [insertRanked, if_pos hc]
      exact List.nodup_cons.mpr ⟨hi, h⟩
    · rw [insertRanked, if_neg hc]
      refine List.nodup_cons.mpr ⟨?_, ih hi' hrest⟩
      intro hmem
      rcases mem_insertRanked.mp hmem with h' | h'
      · exact hij h'.symm
      · exact hj h'

theorem pySortDesc_nodup {key : Nat → ℚ} {l : List Nat} (h : l.Nodup) :
    (pySortDesc key l).Nodup := by
  induction l with
  | nil => simp [pySortDesc]
  | cons i rest ih =>
    rcases List.nodup_cons.mp h with ⟨hi, hrest⟩
    exact insertRanked_nodup (fun hc => hi (mem_pySortDesc.mp hc)) (ih hrest)

/-- On a duplicate-free index list the ranking order is strict: larger fused
score first, and among equal fused scores the smaller index first. -/
theorem pySortDesc_pairwise_strict {key : Nat → ℚ} {l : List Nat} (h : l.Nodup) :
    (pySortDesc key l).Pairwise
      (fun i j => key j < key i ∨ (key i = key j ∧ i < j)) := by
  have h1 := pySortDesc_pairwise key l
  have h2 : (pySortDesc key l).Pairwise (fun a b : Nat => a ≠ b) := pySortDesc_nodup h
  exact (h1.and h2).imp (fun hab => by
    rcases hab with ⟨hlt | ⟨heq, hle⟩, hne⟩
    · exact Or.inl hlt
    · exact Or.inr ⟨heq, lt_of_le_of_ne hle hne⟩)

/-- `RetrievedChunk` (rag_engine.py lines 18-24), the `QueryResult` of the
spec: document id, original text, score, detected language, highlights. -/
structure RetrievedChunk where
  doc_id : String
  text : String
  score : ℚ
  language : String
  highlights : List String
deriving DecidableEq

/-- The external collaborators of the engine, modelled as explicit
functions: the `rank_bm25` scorer `BM25Okapi(tokenized_corpus).get_scores`,
the optional `FlagEmbedding` encoder (line 34; `None` when the import
fails), `langdetect.detect` (fallible), `math.sqrt`, and `str.lower`.
Fallible calls return `Except`, modelling Python exceptions. -/
structure Collab where
  bm25Scores : List (List String) → List String → List ℚ
  embedder : Option (List String → Except String (List (List ℚ)))
  detect : String → Except String String
  sqrt : ℚ → ℚ
  lower : String → String

/-- The mutable state of `RAGEngine` (rag_engine.py lines 30-35):
the corpus, the BM25 index (represented by the tokenized corpus the
`BM25Okapi` object was built from; `none` models `self._bm25 = None`),
and the per-document embedding vectors. -/
structure RAGEngine where
  corpus : List String
  bm25 : Option (List (List String))
  docEmbeddings : List (List ℚ)
deriving DecidableEq

/-- `RAGEngine.__init__` (rag_engine.py lines 30-40). -/
def RAGEngine.new (c : Collab) (corpus : List String) : Except String RAGEngine :=
  let tokenized := corpus.map pySplit
  let bm25 := if tokenized.isEmpty then none else some tokenized
  match c.embedder with
  | some enc =>
    if corpus.isEmpty then .ok ⟨corpus, bm25, []⟩
    else (enc corpus).bind fun encoded => .ok ⟨corpus, bm25, encoded⟩
  | none => .ok ⟨corpus, bm25, []⟩

/-- `RAGEngine.index` (rag_engine.py lines 42-51): append the documents,
rebuild the BM25 index over the whole corpus, re-encode the whole corpus
when an encoder is configured.  The `Option Int` component is the Python
return value: the function body has no `return`, so it is always `none`
(Python `None`).  An encoder failure propagates (there is no handler). -/
def RAGEngine.index (c : Collab) (e : RAGEngine) (documents : List String) :
    Except String (RAGEngine × Option Int) :=
  let corpus := e.corpus ++ documents
  let tokenized := corpus.map pySplit
  match c.embedder with
  | some enc =>
    (enc corpus).bind fun encoded => .ok (⟨corpus, some tokenized, encoded⟩, none)
  | none => .ok (⟨corpus, some tokenized, e.docEmbeddings⟩, none)

/-- Sum of squares, `sum(value * value for value in vector)`
(rag_engine.py lines 67 and 69). -/
def sumSq (v : List ℚ) : ℚ := (v.map fun x => x * x).sum

/-- `sum(q * d for q, d in zip(query_vector, doc_vector))`
(rag_engine.py line 72). -/
def dotProduct (q d : List ℚ) : ℚ := (List.zipWith (fun a b => a * b) q d).sum

/-- The loop of rag_engine.py lines 68-73: `for idx, doc_vector in
enumerate(self._doc_embeddings)`, skipping zero-norm documents and writing
`dot / (norm_query * norm_doc)` into slot `idx` otherwise. -/
def embedLoop (c : Collab) (normQuery : ℚ) (qv : List ℚ) :
    List (List ℚ) → Nat → List ℚ → List ℚ
  | [], _, scores => scores
  | dv :: rest, idx, scores =>
    let normDoc := c.sqrt (sumSq dv)
    if normDoc = 0 then embedLoop c normQuery qv rest (idx + 1) scores
    else
      embedLoop c normQuery qv rest (idx + 1)
        (scores.set idx (dotProduct qv dv / (normQuery * normDoc)))

/-- `embedding_scores` (rag_engine.py lines 58 and 66-73): a zero per
document, overwritten with cosine similarities when a (truthy, i.e.
non-empty) query vector is available; `norm_query = sqrt(...) or 1.0`
replaces a zero query norm by `1.0`. -/
def embeddingScores (c : Collab) (e : RAGEngine) (qv : Option (List ℚ)) : List ℚ :=
  let init := List.replicate e.corpus.length 0
  match qv with
  | none => init
  | some v =>
    if v.isEmpty then init
    else
      let s := c.sqrt (sumSq v)
      let normQuery := if s = 0 then 1 else s
      embedLoop c normQuery v e.docEmbeddings 0 init

/-- The sort key of rag_engine.py line 76:
`(0.6 * bm25_scores[idx]) + (0.4 * embedding_scores[idx])`. -/
def fusedScore (bs es : List ℚ) (idx : Nat) : ℚ :=
  3/5 * bs.getD idx 0 + 2/5 * es.getD idx 0

/-- `ranked_indices` (rag_engine.py lines 74-78): all document indices,
sorted by fused score descending (stable, ties keep ascending index), then
sliced with `[:top_k]`. -/
def rankedIndices (key : Nat → ℚ) (n : Nat) (topk : Int) : List Nat :=
  pyTake topk (pySortDesc key (List.range n))

/-- `query_vector` (rag_engine.py lines 59-65): only computed when an
encoder is configured and document embeddings exist; the encoder is called
on `[text]` with no exception handler, and a falsy (empty) result leaves
the query vector as `None`. -/
def queryVectorOf (c : Collab) (e : RAGEngine) (text : String) :
    Except String (Option (List ℚ)) :=
  match c.embedder with
  | some enc =>
    if e.docEmbeddings.isEmpty then .ok none
    else
      (enc [text]).bind fun encoded =>
        .ok (match encoded with | [] => none | v :: _ => some v)
  | none => .ok none

/-- The body of the result loop (rag_engine.py lines 81-97): language
detection with fallback to `"unknown"`, highlight extraction, and the
`RetrievedChunk` construction; note `score=float(bm25_scores[idx])`. -/
def resultFor (c : Collab) (e : RAGEngine) (bs : List ℚ) (tokenSet : List String)
    (idx : Nat) : RetrievedChunk :=
  let doc := e.corpus.getD idx ""
  let lang := match c.detect doc with | .ok l => l | .error _ => "unknown"
  let docTokens := (pySplit doc).filter fun t => t ≠ ""
  let highlights :=
    pySorted ((docTokens.filter fun t => tokenSet.contains (c.lower t)).dedup)
  ⟨toString idx, doc, bs.getD idx 0, lang, highlights⟩

/-- rag_engine.py lines 56-58 and 74-98, given the already-computed query
vector: BM25 scores, embedding scores, ranking, truncation and result
construction. -/
def queryWith (c : Collab) (e : RAGEngine) (tc : List (List String)) (text : String)
    (topk : Int) (qv : Option (List ℚ)) : List RetrievedChunk :=
  let queryTokens := pySplit text
  let bs := c.bm25Scores tc queryTokens
  let es := embeddingScores c e qv
  let ranked := rankedIndices (fusedScore bs es) e.corpus.length topk
  let tokenSet := (queryTokens.filter fun t => t ≠ "").map c.lower
  ranked.map fun idx => resultFor c e bs tokenSet idx

/-- `RAGEngine.query` (rag_engine.py lines 53-98).  Empty corpus or absent
BM25 index returns `[]`; an encoder failure at query time propagates. -/
def RAGEngine.query (c : Collab) (e : RAGEngine) (text : String) (topk : Int) :
    Except String (List RetrievedChunk) :=
  match e.bm25 with
  | none => .ok []
  | some tc =>
    if e.corpus.isEmpty then .ok []
    else (queryVectorOf c e text).bind fun qv => .ok (queryWith c e tc text topk qv)

/-- Number of per-document entries in the lexical index snapshot
(`BM25Okapi` holds one `doc_len`/`doc_freqs` entry per tokenized
document). -/
def lexicalCount (e : RAGEngine) : Nat := (e.bm25.getD []).length

/-- The data computed by the `BM25Okapi` constructor of the `rank_bm25`
library: per-document lengths, average document length, and the
inverse-document-frequency table. -/
structure BM25Model where
  docLen : List Nat
  avgdl : ℚ
  idf : List (String × ℚ)
deriving DecidableEq

/-- Modelled from the `rank_bm25` library (`BM25.__init__`/`_initialize`
and `BM25Okapi._calc_idf`, constants `k1=1.5, b=0.75, epsilon=0.25`), which
rag_engine.py line 46 invokes as `BM25Okapi(tokenized_corpus)`.  Python
computes `self.avgdl = num_doc / self.corpus_size` (a `ZeroDivisionError`
for an empty corpus) and `self.average_idf = idf_sum / len(self.idf)` (a
`ZeroDivisionError` for an empty vocabulary); both divisions are modelled
as fallible.  `log` abstracts `math.log`; `nd w` is the number of documents
containing `w`. -/
def bm25okapiInit (log : ℚ → ℚ) (corpus : List (List String)) :
    Except String BM25Model :=
  let docLen := corpus.map List.length
  let numDoc : ℚ := (docLen.map fun l => (l : ℚ)).sum
  if corpus.length = 0 then .error "ZeroDivisionError"
  else
    let avgdl := numDoc / (corpus.length : ℚ)
    let vocab := (corpus.map List.dedup).flatten.dedup
    let nd := fun w => ((corpus.filter fun d => d.contains w).length : ℚ)
    let rawIdf := fun w => log ((corpus.length : ℚ) - nd w + 1/2) - log (nd w + 1/2)
    if vocab.length = 0 then .error "ZeroDivisionError"
    else
      let idfSum := (vocab.map rawIdf).sum
      let averageIdf := idfSum / (vocab.length : ℚ)
      let eps := 1/4 * averageIdf
      .ok ⟨docLen, avgdl, vocab.map fun w => (w, if rawIdf w < 0 then eps else rawIdf w)⟩

/-- rag_engine.py lines 45-46: tokenize the whole corpus and construct the
`BM25Okapi` object over it. -/
def rebuildLexicalIndex (log : ℚ → ℚ) (corpus : List String) :
    Except String BM25Model :=
  bm25okapiInit log (corpus.map pySplit)

theorem except_bind_ok {ε α β : Type} {m : Except ε α} {f : α → Except ε β} {res : β}
    (h : m.bind f = .ok res) : ∃ a, m = .ok a ∧ f a = .ok res := by
  cases m with
  | ok a => exact ⟨a, rfl, h⟩
  | error err => simp [Except.bind] at h

/-- Inversion for a successful `query`: either the early-return of
rag_engine.py lines 54-55 fired, or the full pipeline ran. -/
theorem query_ok_cases {c : Collab} {e : RAGEngine} {text : String} {topk : Int}
    {res : List RetrievedChunk} (h : RAGEngine.query c e text topk = .ok res) :
    ((e.bm25 = none ∨ e.corpus.isEmpty = true) ∧ res = []) ∨
    ∃ tc qv, e.bm25 = some tc ∧ e.corpus.isEmpty = false ∧
      queryVectorOf c e text = .ok qv ∧ res = queryWith c e tc text topk qv := by
  unfold RAGEngine.query at h
  split at h
  · next heq => exact Or.inl ⟨Or.inl heq, (Except.ok.inj h).symm⟩
  · next tc heq =>
    split at h
    · next hc => exact Or.inl ⟨Or.inr hc, (Except.ok.inj h).symm⟩
    · next hc =>
      rcases except_bind_ok h with ⟨qv, hqv, hres⟩
      exact Or.inr ⟨tc, qv, heq, by simpa using hc, hqv, (Except.ok.inj hres).symm⟩

theorem embedLoop_length (c : Collab) (nq : ℚ) (qv : List ℚ) :
    ∀ (dvs : List (List ℚ)) (idx : Nat) (scores : List ℚ),
    (embedLoop c nq qv dvs idx scores).length = scores.length := by
  intro dvs
  induction dvs with
  | nil => intro idx scores; rfl
  | cons dv rest ih =>
    intro idx scores
    rw [embedLoop]
    by_cases h : c.sqrt (sumSq dv) = 0
    · simp only [h, if_true]
      exact ih (idx + 1) scores
    · simp only [h, if_false]
      rw [ih (idx + 1) _]
      exact List.length_set scores idx _

theorem embedLoop_get_lt (c : Collab) (nq : ℚ) (qv : List ℚ) :
    ∀ (dvs : List (List ℚ)) (idx : Nat) (scores : List ℚ) (i : Nat), i < idx →
    (embedLoop c nq qv dvs idx scores)[i]? = scores[i]? := by
  intro dvs
  induction dvs with
  | nil => intro idx scores i _; rfl
  | cons dv rest ih =>
    intro idx scores i hi
    rw [embedLoop]
    by_cases h : c.sqrt (sumSq dv) = 0
    · simp only [h, if_true]
      exact ih (idx + 1) scores i (by omega)
    · simp only [h, if_false]
      rw [ih (idx + 1) _ i (by omega)]
      exact List.getElem?_set_ne (by omega)

/-- Entry `idx + j` of the cosine-similarity loop is determined by document
vector `j`: untouched for zero-norm documents, cosine value otherwise. -/
theorem embedLoop_get (c : Collab) (nq : ℚ) (qv : List ℚ) :
    ∀ (dvs : List (List ℚ)) (idx : Nat) (scores : List ℚ) (j : Nat),
    j < dvs.length → idx + j < scores.length →
    (embedLoop c nq qv dvs idx scores)[idx + j]? =
      (if c.sqrt (sumSq (dvs.getD j [])) = 0 then scores[idx + j]?
       else some (dotProduct qv (dvs.getD j []) /
         (nq * c.sqrt (sumSq (dvs.getD j []))))) := by
  intro dvs
  induction dvs with
  | nil => intro idx scores j hj; simp at hj
  | cons dv rest ih =>
    intro idx scores j hj hlen
    cases j with
    | zero =>
      rw [embedLoop]
      simp only [List.getD_cons_zero]
      by_cases h : c.sqrt (sumSq dv) = 0
      · simp only [h, if_true]
        exact embedLoop_get_lt c nq qv rest (idx + 1) scores (idx + 0) (by omega)
      · simp only [h, if_false]
        rw [embedLoop_get_lt c nq qv rest (idx + 1) _ (idx + 0) (by omega)]
        have : idx + 0 = idx := by omega
        rw [this]
        rw [List.getElem?_set_self]
        omega
    | succ j' =>
      rw [embedLoop]
      simp only [List.getD_cons_succ]
      have hidx : idx + (j' + 1) = (idx + 1) + j' := by omega
      by_cases h : c.sqrt (sumSq dv) = 0
      · simp only [h, if_true]
        rw [hidx]
        rw [ih (idx + 1) scores j' (by simpa using hj) (by omega)]
      · simp only [h, if_false]
        rw [hidx]
        rw [ih (idx + 1) _ j' (by simpa using hj) (by simp [List.length_set]; omega)]
        rw [List.getElem?_set_ne (by omega)]

theorem sumSq_nonneg (v : List ℚ) : 0 ≤ sumSq v := by
  unfold sumSq
  apply List.sum_nonneg
  intro x hx
  rcases List.mem_map.mp hx with ⟨y, _, rfl⟩
  exact mul_self_nonneg y

theorem eq_zero_of_sumSq_eq_zero {v : List ℚ} (h : sumSq v = 0) : ∀ x ∈ v, x = 0 := by
  induction v with
  | nil => simp
  | cons a as ih =>
    have hsplit : sumSq (a :: as) = a * a + sumSq as := by
      unfold sumSq; simp
    rw [hsplit] at h
    have h1 : 0 ≤ a * a := mul_self_nonneg a
    have h2 : 0 ≤ sumSq as := sumSq_nonneg as
    have ha : a * a = 0 := by linarith
    have has : sumSq as = 0 := by linarith
    intro x hx
    rcases List.mem_cons.mp hx with rfl | hx
    · exact mul_self_eq_zero.mp ha
    · exact ih has x hx

theorem dotProduct_eq_zero_left : ∀ {q : List ℚ}, (∀ x ∈ q, x = 0) →
    ∀ (d : List ℚ), dotProduct q d = 0 := by
  intro q
  induction q with
  | nil => intro _ d; cases d <;> rfl
  | cons a as ih =>
    intro h d
    cases d with
    | nil => rfl
    | cons b bs =>
      have hsplit : dotProduct (a :: as) (b :: bs) = a * b + dotProduct as bs := by
        unfold dotProduct; simp
      rw [hsplit, h a (by simp), ih (fun x hx => h x (by simp [hx])) bs]
      ring

theorem pyTake_length_eq (k : Int) (xs : List α) :
    (pyTake k xs).length =
      min (if 0 ≤ k then k.toNat else xs.length - (-k).toNat) xs.length := by
  unfold pyTake
  split <;> simp_all [List.length_take]

/-- The number of results produced by the pipeline equals the length of the
truncated index list. -/
theorem queryWith_length (c : Collab) (e : RAGEngine) (tc : List (List String))
    (text : String) (topk : Int) (qv : Option (List ℚ)) :
    (queryWith c e tc text topk qv).length =
      min (if 0 ≤ topk then topk.toNat else e.corpus.length - (-topk).toNat)
        e.corpus.length := by
  simp only [queryWith, List.length_map, rankedIndices, pyTake_length_eq,
    length_pySortDesc, List.length_range]

/-- Every result produced by the pipeline is `resultFor` at an in-range
document index. -/
theorem queryWith_mem {c : Collab} {e : RAGEngine} {tc : List (List String)}
    {text : String} {topk : Int} {qv : Option (List ℚ)} {r : RetrievedChunk}
    (hr : r ∈ queryWith c e tc text topk qv) :
    ∃ idx, idx < e.corpus.length ∧
      r = resultFor c e (c.bm25Scores tc (pySplit text))
        (((pySplit text).filter fun t => t ≠ "").map c.lower) idx := by
  simp only [queryWith] at hr
  rcases List.mem_map.mp hr with ⟨idx, hidx, rfl⟩
  refine ⟨idx, ?_, rfl⟩
  have h1 := pyTake_mem (by simpa [rankedIndices] using hidx)
  exact List.mem_range.mp (mem_pySortDesc.mp h1)

/-- Membership in the highlight set computed at rag_engine.py lines 80 and
87-88, with the token set built from the query as in `queryWith`: exactly
the document tokens whose lowercase form equals the lowercase form of some
query token. -/
theorem resultFor_highlights_mem (c : Collab) (e : RAGEngine) (bs : List ℚ)
    (text : String) (idx : Nat) (s : String) :
    (s ∈ (resultFor c e bs
        (((pySplit text).filter fun t => t ≠ "").map c.lower) idx).highlights) ↔
      (s ∈ pySplit (e.corpus.getD idx "") ∧
        ∃ q ∈ pySplit text, c.lower s = c.lower q) := by
  simp only [resultFor]
  rw [mem_pySorted, List.mem_dedup]
  simp only [List.mem_filter]
  constructor
  · rintro ⟨⟨hs, _⟩, hcont⟩
    refine ⟨hs, ?_⟩
    have hmem : c.lower s ∈ ((pySplit text).filter fun t => t ≠ "").map c.lower := by
      simpa using hcont
    rcases List.mem_map.mp hmem with ⟨q, hq, hlq⟩
    exact ⟨q, (List.mem_filter.mp hq).1, hlq.symm⟩
  · rintro ⟨hs, q, hq, hlq⟩
    refine ⟨⟨hs, by simpa using pySplit_ne_empty _ s hs⟩, ?_⟩
    have hq' : q ∈ (pySplit text).filter fun t => t ≠ "" :=
      List.mem_filter.mpr ⟨hq, by simpa using pySplit_ne_empty _ q hq⟩
    have hmem : c.lower s ∈ ((pySplit text).filter fun t => t ≠ "").map c.lower :=
      List.mem_map.mpr ⟨q, hq', hlq.symm⟩
    simpa using hmem

/-- The highlight list is strictly ascending in code-point order (it is a
Python `sorted` of a set). -/
theorem resultFor_highlights_sorted (c : Collab) (e : RAGEngine) (bs : List ℚ)
    (tokenSet : List String) (idx : Nat) :
    (resultFor c e bs tokenSet idx).highlights.Pairwise pyStrLt := by
  simp only [resultFor]
  exact pySorted_pairwise_lt (List.nodup_dedup _)

/-- A collaborator with no encoder: the BM25 scorer gives every document
score 0 (as for a query matching no document), detection says `"en"`,
`sqrt` and `lower` are concrete stand-ins. -/
def collabZero : Collab :=
  { bm25Scores := fun tc _ => tc.map fun _ => 0
    embedder := none
    detect := fun _ => .ok "en"
    sqrt := fun x => x
    lower := fun s => s }

/-- Like `collabZero` but every document receives BM25 score 1. -/
def collabOne : Collab := { collabZero with bm25Scores := fun tc _ => tc.map fun _ => 1 }

/-- A collaborator whose configured encoder raises on every call. -/
def collabFailEnc : Collab :=
  { collabZero with embedder := some fun _ => .error "encoder failure" }

/-- A collaborator whose configured encoder returns the vector `[1]` for
each input text. -/
def collabEnc : Collab :=
  { collabZero with embedder := some fun ts => .ok (ts.map fun _ => [1]) }

/-- The engine state `RAGEngine()` starts in (app.py line 38). -/
def engineEmpty : RAGEngine := ⟨[], none, []⟩

/-- The engine state after indexing `["a"]` with no encoder. -/
def engineOne : RAGEngine := ⟨["a"], some [["a"]], []⟩

/-- The engine state after indexing `["a", "b"]` with no encoder. -/
def engineTwo : RAGEngine := ⟨["a", "b"], some [["a"], ["b"]], []⟩

/-- The engine state after indexing `["a"]` with an encoder that produced
the document vector `[1]`. -/
def engineEmb : RAGEngine := ⟨["a"], some [["a"]], [[1]]⟩

/-- C1, counterexample: for corpus `["a"]` with no encoder and BM25 score 1,
`query` returns `score = 1` (the raw lexical score), while the claim's fused
score `0.6*L + 0.4*S` at this input is `0.6*1 + 0.4*0 = 3/5 ≠ 1`. -/
theorem C1_counterexample :
    RAGEngine.query collabOne engineOne "a" 5 = .ok [⟨"0", "a", 1, "en", ["a"]⟩] ∧
    (1 : ℚ) ≠ fusedScore (collabOne.bm25Scores [["a"]] (pySplit "a"))
      (embeddingScores collabOne engineOne none) 0 := by
  constructor
  · rfl
  · show (1 : ℚ) ≠ 3/5 * 1 + 2/5 * 0
    norm_num

/-- C1 (amended): the `score` field of every result of `query` equals the
document's raw lexical BM25 score `bm25_scores[idx]` (rag_engine.py
line 93); the fused score `0.6*L + 0.4*S` is used only for ranking. -/
theorem C1_score_is_lexical (c : Collab) (e : RAGEngine) (tc : List (List String))
    (text : String) (topk : Int) (res : List RetrievedChunk)
    (hbm : e.bm25 = some tc) (hq : RAGEngine.query c e text topk = .ok res) :
    ∀ r ∈ res, ∃ idx, idx < e.corpus.length ∧ r.doc_id = toString idx ∧
      r.score = (c.bm25Scores tc (pySplit text)).getD idx 0 := by
  intro r hr
  rcases query_ok_cases hq with ⟨_, rfl⟩ | ⟨tc', qv, hbm', _, _, rfl⟩
  · simp at hr
  · rw [hbm] at hbm'
    injection hbm' with htc
    subst htc
    rcases queryWith_mem hr with ⟨idx, hidx, rfl⟩
    exact ⟨idx, hidx, rfl, rfl⟩

/-- C1, witness for the amended claim at a concrete input. -/
theorem C1_witness :
    ∃ idx, idx < engineOne.corpus.length ∧
      (⟨"0", "a", 1, "en", ["a"]⟩ : RetrievedChunk).doc_id = toString idx ∧
      (⟨"0", "a", 1, "en", ["a"]⟩ : RetrievedChunk).score =
        (collabOne.bm25Scores [["a"]] (pySplit "a")).getD idx 0 :=
  C1_score_is_lexical collabOne engineOne [["a"]] "a" 5
    [⟨"0", "a", 1, "en", ["a"]⟩] rfl rfl ⟨"0", "a", 1, "en", ["a"]⟩ (by simp)

/-- C2: the claim "`query` returns `[]` whenever `top_k ≤ 0`" fails on the
code: with two indexed documents and `top_k = -1`, the Python slice
`[:top_k]` keeps all but the last ranked entry, so `query` returns one
result instead of the empty list. -/
theorem C2_negative_topk_returns_results :
    (RAGEngine.query collabZero engineTwo "x" (-1)).map List.length = .ok 1 ∧
    RAGEngine.query collabZero engineTwo "x" (-1) ≠ .ok [] := by
  have h : RAGEngine.query collabZero engineTwo "x" (-1) =
      .ok (queryWith collabZero engineTwo [["a"], ["b"]] "x" (-1) none) := rfl
  have hlen : (queryWith collabZero engineTwo [["a"], ["b"]] "x" (-1) none).length = 1 := by
    rw [queryWith_length]
    decide
  constructor
  · rw [h]
    simp [Except.map, hlen]
  · rw [h]
    intro hc
    rw [Except.ok.inj hc] at hlen
    simp at hlen

/-- C3: the claim "an encoder failure during `query` is caught and the query
falls back to semantic score 0" fails on the code: the encoder call at
rag_engine.py line 61 has no exception handler, so the failure propagates
and the whole query aborts. -/
theorem C3_encoder_failure_propagates :
    RAGEngine.query collabFailEnc engineEmb "a" 5 = .error "encoder failure" := rfl

/-- C4, counterexample: `RAGEngine.index` is annotated `-> None` and has no
`return`; on appending one document it returns `None`, not the count 1 the
claim asserts. -/
theorem C4_counterexample :
    (RAGEngine.index collabZero engineEmpty ["a"]).map Prod.snd = .ok none ∧
    (none : Option Int) ≠ some 1 := by
  exact ⟨rfl, by decide⟩

/-- C4 (amended): `index` returns `None`; the number of documents appended
(the growth of the corpus) equals the length of the input sequence — the
count the HTTP layer reports is computed there, not returned by the
engine. -/
theorem C4_index_returns_none (c : Collab) (e : RAGEngine) (docs : List String)
    (e' : RAGEngine) (r : Option Int)
    (h : RAGEngine.index c e docs = .ok (e', r)) :
    r = none ∧ e'.corpus.length = e.corpus.length + docs.length := by
  unfold RAGEngine.index at h
  split at h
  · next enc heq =>
    rcases except_bind_ok h with ⟨encoded, _, hok⟩
    have hp := Except.ok.inj hok
    have h1 := congrArg Prod.fst hp
    have h2 := congrArg Prod.snd hp
    simp only at h1 h2
    refine ⟨h2.symm, ?_⟩
    rw [← h1]
    simp
  · next heq =>
    have hp := Except.ok.inj h
    have h1 := congrArg Prod.fst hp
    have h2 := congrArg Prod.snd hp
    simp only at h1 h2
    refine ⟨h2.symm, ?_⟩
    rw [← h1]
    simp

/-- C4, witness for the amended claim at a concrete input. -/
theorem C4_witness :
    (none : Option Int) = none ∧
      (⟨["a"], some [["a"]], []⟩ : RAGEngine).corpus.length =
        engineEmpty.corpus.length + (["a"] : List String).length :=
  C4_index_returns_none collabZero engineEmpty ["a"] ⟨["a"], some [["a"]], []⟩ none rfl

/-- C5: on a successful `query`, the results are exactly the documents in
the order of `sorted(range(n), key=fused, reverse=True)[:top_k]`, and that
sort orders the indices by fused score `0.6*L + 0.4*S` strictly descending
with ascending original index breaking ties (Python's stable sort). -/
theorem C5_ranking_order (c : Collab) (e : RAGEngine) (tc : List (List String))
    (text : String) (topk : Int) (qv : Option (List ℚ))
    (hbm : e.bm25 = some tc) (hne : e.corpus.isEmpty = false)
    (hqv : queryVectorOf c e text = .ok qv) :
    RAGEngine.query c e text topk =
      .ok ((rankedIndices
            (fusedScore (c.bm25Scores tc (pySplit text)) (embeddingScores c e qv))
            e.corpus.length topk).map
          (resultFor c e (c.bm25Scores tc (pySplit text))
            (((pySplit text).filter fun t => t ≠ "").map c.lower))) ∧
    (pySortDesc
        (fusedScore (c.bm25Scores tc (pySplit text)) (embeddingScores c e qv))
        (List.range e.corpus.length)).Pairwise
      (fun i j =>
        fusedScore (c.bm25Scores tc (pySplit text)) (embeddingScores c e qv) j <
          fusedScore (c.bm25Scores tc (pySplit text)) (embeddingScores c e qv) i ∨
        (fusedScore (c.bm25Scores tc (pySplit text)) (embeddingScores c e qv) i =
          fusedScore (c.bm25Scores tc (pySplit text)) (embeddingScores c e qv) j ∧
          i < j)) := by
  constructor
  · unfold RAGEngine.query
    rw [hbm]
    simp only [hne, Bool.false_eq_true, if_false]
    rw [hqv]
    rfl
  · exact pySortDesc_pairwise_strict (List.nodup_range _)

/-- C5, witness at a concrete input. -/
theorem C5_witness :
    RAGEngine.query collabZero engineOne "a" 5 =
      .ok ((rankedIndices
            (fusedScore (collabZero.bm25Scores [["a"]] (pySplit "a"))
              (embeddingScores collabZero engineOne none))
            engineOne.corpus.length 5).map
          (resultFor collabZero engineOne
            (collabZero.bm25Scores [["a"]] (pySplit "a"))
            (((pySplit "a").filter fun t => t ≠ "").map collabZero.lower))) ∧
    (pySortDesc
        (fusedScore (collabZero.bm25Scores [["a"]] (pySplit "a"))
          (embeddingScores collabZero engineOne none))
        (List.range engineOne.corpus.length)).Pairwise
      (fun i j =>
        fusedScore (collabZero.bm25Scores [["a"]] (pySplit "a"))
            (embeddingScores collabZero engineOne none) j <
          fusedScore (collabZero.bm25Scores [["a"]] (pySplit "a"))
            (embeddingScores collabZero engineOne none) i ∨
        (fusedScore (collabZero.bm25Scores [["a"]] (pySplit "a"))
            (embeddingScores collabZero engineOne none) i =
          fusedScore (collabZero.bm25Scores [["a"]] (pySplit "a"))
            (embeddingScores collabZero engineOne none) j ∧
          i < j)) :=
  C5_ranking_order collabZero engineOne [["a"]] "a" 5 none rfl rfl rfl

/-- C6: the claim "no engine operation raises; empty documents are stored
and participate in indexing" fails on the code: `index` hands the tokenized
corpus to the `rank_bm25` constructor, which computes
`num_doc / self.corpus_size` and `idf_sum / len(self.idf)`, raising
`ZeroDivisionError` both for `index([])` on an empty engine (empty corpus)
and for `index([""])` on an empty engine (empty vocabulary) — whatever the
value of `math.log`. -/
theorem C6_index_zerodivision (log : ℚ → ℚ) :
    rebuildLexicalIndex log [] = .error "ZeroDivisionError" ∧
    rebuildLexicalIndex log [""] = .error "ZeroDivisionError" :=
  ⟨rfl, rfl⟩

/-- C7: for every result of a successful `query`, the highlight list holds
exactly the document's whitespace tokens whose lowercase form equals the
lowercase form of some whitespace token of the query (exact token equality),
deduplicated and strictly ascending in code-point order; empty queries or
documents simply yield no matches. -/
theorem C7_highlights (c : Collab) (e : RAGEngine) (text : String) (topk : Int)
    (res : List RetrievedChunk) (hq : RAGEngine.query c e text topk = .ok res) :
    ∀ r ∈ res,
      (∀ s : String, s ∈ r.highlights ↔
        (s ∈ pySplit r.text ∧ ∃ q ∈ pySplit text, c.lower s = c.lower q)) ∧
      r.highlights.Pairwise pyStrLt := by
  intro r hr
  rcases query_ok_cases hq with ⟨_, rfl⟩ | ⟨tc, qv, _, _, _, rfl⟩
  · simp at hr
  · rcases queryWith_mem hr with ⟨idx, _, rfl⟩
    constructor
    · intro s
      exact resultFor_highlights_mem c e _ text idx s
    · exact resultFor_highlights_sorted c e _ _ idx

/-- The engine state after indexing `["the cat sat"]` with no encoder. -/
def engineCat : RAGEngine := ⟨["the cat sat"], some [["the", "cat", "sat"]], []⟩

/-- C7, witness at the concrete corpus/query of the spec's highlight
example. -/
theorem C7_witness :
    (∀ s : String,
      s ∈ (⟨"0", "the cat sat", 0, "en", ["cat"]⟩ : RetrievedChunk).highlights ↔
        (s ∈ pySplit (⟨"0", "the cat sat", 0, "en", ["cat"]⟩ : RetrievedChunk).text ∧
          ∃ q ∈ pySplit "cat dog", collabZero.lower s = collabZero.lower q)) ∧
    (⟨"0", "the cat sat", 0, "en", ["cat"]⟩ : RetrievedChunk).highlights.Pairwise
      pyStrLt :=
  C7_highlights collabZero engineCat "cat dog" 5
    [⟨"0", "the cat sat", 0, "en", ["cat"]⟩] rfl
    ⟨"0", "the cat sat", 0, "en", ["cat"]⟩ (by simp)

/-- C8: the semantic similarity computed for a document during `query`
equals `dot(query, doc) / (norm(query) * norm(doc))` when both norms are
nonzero and `0` whenever either norm is zero, with no division by zero: a
zero-norm document is skipped (line 70-71) and a zero query norm is
replaced by `1.0` (line 67), which still yields 0 because the query vector
is then all zeros.  `hsqrt` is the characteristic property of the real
square root on the nonnegative inputs arising here. -/
theorem C8_cosine_similarity (c : Collab) (e : RAGEngine) (qv : List ℚ)
    (hsqrt : ∀ x : ℚ, 0 ≤ x → (c.sqrt x = 0 ↔ x = 0))
    (j : Nat) (hj : j < e.corpus.length) (hd : j < e.docEmbeddings.length) :
    (embeddingScores c e (some qv)).getD j 0 =
      if c.sqrt (sumSq qv) ≠ 0 ∧ c.sqrt (sumSq (e.docEmbeddings.getD j [])) ≠ 0
      then dotProduct qv (e.docEmbeddings.getD j []) /
        (c.sqrt (sumSq qv) * c.sqrt (sumSq (e.docEmbeddings.getD j [])))
      else 0 := by
  have hrep : (List.replicate e.corpus.length (0:ℚ))[j]? = some 0 := by
    simp [List.getElem?_replicate, hj]
  simp only [embeddingScores]
  by_cases hv : qv.isEmpty
  · rw [if_pos hv]
    have hqnil : qv = [] := by simpa [List.isEmpty_iff] using hv
    have hz : c.sqrt (sumSq qv) = 0 := by
      rw [hqnil]
      exact (hsqrt 0 le_rfl).mpr rfl
    have hno : ¬(c.sqrt (sumSq qv) ≠ 0 ∧
        c.sqrt (sumSq (e.docEmbeddings.getD j [])) ≠ 0) := fun hcond => hcond.1 hz
    rw [if_neg hno]
    simp [List.getD, hrep]
  · rw [if_neg hv]
    have hget := embedLoop_get c
      (if c.sqrt (sumSq qv) = 0 then 1 else c.sqrt (sumSq qv)) qv
      e.docEmbeddings 0 (List.replicate e.corpus.length 0) j hd
      (by simpa using hj)
    rw [Nat.zero_add] at hget
    by_cases hnd : c.sqrt (sumSq (e.docEmbeddings.getD j [])) = 0
    · rw [if_pos hnd] at hget
      have hno : ¬(c.sqrt (sumSq qv) ≠ 0 ∧
          c.sqrt (sumSq (e.docEmbeddings.getD j [])) ≠ 0) := fun hcond => hcond.2 hnd
      conv_rhs => rw [if_neg hno]
      simp [List.getD, hget, hrep]
    · rw [if_neg hnd] at hget
      by_cases hq0 : c.sqrt (sumSq qv) = 0
      · have hzero : ∀ x ∈ qv, x = 0 :=
          eq_zero_of_sumSq_eq_zero ((hsqrt (sumSq qv) (sumSq_nonneg qv)).mp hq0)
        have hdot : dotProduct qv (e.docEmbeddings.getD j []) = 0 :=
          dotProduct_eq_zero_left hzero _
        have hno : ¬(c.sqrt (sumSq qv) ≠ 0 ∧
            c.sqrt (sumSq (e.docEmbeddings.getD j [])) ≠ 0) := fun hcond => hcond.1 hq0
        conv_rhs => rw [if_neg hno]
        rw [if_pos hq0] at hget
        rw [if_pos hq0]
        rw [List.getD_eq_getElem?_getD, hget, Option.getD_some, hdot]
        simp
      · have hyes : c.sqrt (sumSq qv) ≠ 0 ∧
            c.sqrt (sumSq (e.docEmbeddings.getD j [])) ≠ 0 := ⟨hq0, hnd⟩
        conv_rhs => rw [if_pos hyes]
        rw [if_neg hq0] at hget
        rw [if_neg hq0]
        simp [List.getD, hget]

/-- C8, witness at a concrete input (query vector `[1]`, document vector
`[1]`, `sqrt` instantiated by a function with the required zero set). -/
theorem C8_witness :
    (embeddingScores collabZero engineEmb (some [1])).getD 0 0 =
      if collabZero.sqrt (sumSq [1]) ≠ 0 ∧
          collabZero.sqrt (sumSq (engineEmb.docEmbeddings.getD 0 [])) ≠ 0
      then dotProduct [1] (engineEmb.docEmbeddings.getD 0 []) /
        (collabZero.sqrt (sumSq [1]) *
          collabZero.sqrt (sumSq (engineEmb.docEmbeddings.getD 0 [])))
      else 0 :=
  C8_cosine_similarity collabZero engineEmb [1] (fun _ _ => Iff.rfl) 0
    (by decide) (by decide)

/-- C9, counterexample: indexing `["a"]` with no encoder leaves the
embedding snapshot empty while the lexical snapshot and corpus have one
entry, so the claimed three-way equality fails. -/
theorem C9_counterexample :
    RAGEngine.index collabZero engineEmpty ["a"] =
      .ok (⟨["a"], some [["a"]], []⟩, none) ∧
    ¬ (lexicalCount ⟨["a"], some [["a"]], []⟩ =
        (⟨["a"], some [["a"]], []⟩ : RAGEngine).docEmbeddings.length ∧
       (⟨["a"], some [["a"]], []⟩ : RAGEngine).docEmbeddings.length =
        (⟨["a"], some [["a"]], []⟩ : RAGEngine).corpus.length) :=
  ⟨rfl, by decide⟩

/-- C9 (amended): after any successful `index` call the lexical snapshot
has exactly one entry per corpus document; when an encoder is configured
and returns one vector per input document the embedding snapshot also has
one vector per corpus document; with no encoder the embedding snapshot is
simply left unchanged (empty if it started empty), not corpus-sized. -/
theorem C9_snapshot_lengths (c : Collab) (e : RAGEngine) (docs : List String)
    (e' : RAGEngine) (r : Option Int)
    (hwf : ∀ enc, c.embedder = some enc →
      ∀ ts vs, enc ts = .ok vs → vs.length = ts.length)
    (h : RAGEngine.index c e docs = .ok (e', r)) :
    lexicalCount e' = e'.corpus.length ∧
    (c.embedder = none → e'.docEmbeddings = e.docEmbeddings) ∧
    (∀ enc, c.embedder = some enc → e'.docEmbeddings.length = e'.corpus.length) := by
  unfold RAGEngine.index at h
  split at h
  · next enc heq =>
    rcases except_bind_ok h with ⟨encoded, henc, hok⟩
    have hp := Except.ok.inj hok
    have h1 := congrArg Prod.fst hp
    simp only at h1
    subst h1
    refine ⟨by simp [lexicalCount], ?_, ?_⟩
    · intro hnone
      rw [heq] at hnone
      exact Option.noConfusion hnone
    · intro enc' heq'
      rw [heq] at heq'
      injection heq' with henc'
      subst henc'
      have hl := hwf enc heq (e.corpus ++ docs) encoded henc
      simp [hl]
  · next heq =>
    have hp := Except.ok.inj h
    have h1 := congrArg Prod.fst hp
    simp only at h1
    subst h1
    refine ⟨by simp [lexicalCount], fun _ => rfl, ?_⟩
    intro enc' heq'
    rw [heq] at heq'
    exact Option.noConfusion heq'

/-- C9, witness for the amended claim with an encoder returning one vector
per document. -/
theorem C9_witness :
    lexicalCount ⟨["a"], some [["a"]], [[1]]⟩ =
      (⟨["a"], some [["a"]], [[1]]⟩ : RAGEngine).corpus.length ∧
    (collabEnc.embedder = none →
      (⟨["a"], some [["a"]], [[1]]⟩ : RAGEngine).docEmbeddings =
        engineEmpty.docEmbeddings) ∧
    (∀ enc, collabEnc.embedder = some enc →
      (⟨["a"], some [["a"]], [[1]]⟩ : RAGEngine).docEmbeddings.length =
        (⟨["a"], some [["a"]], [[1]]⟩ : RAGEngine).corpus.length) :=
  C9_snapshot_lengths collabEnc engineEmpty ["a"] ⟨["a"], some [["a"]], [[1]]⟩ none
    (by
      intro enc h ts vs hv
      injection h with h'
      subst h'
      injection hv with hv'
      subst hv'
      simp)
    rfl

/-- C10: on a non-empty indexed corpus and `top_k ≥ 1`, a successful
`query` returns exactly `min(top_k, corpus size)` results, whatever the
query text — no filtering of zero-scoring documents ever happens before
truncation. -/
theorem C10_result_count (c : Collab) (e : RAGEngine) (tc : List (List String))
    (text : String) (topk : Int) (res : List RetrievedChunk)
    (hbm : e.bm25 = some tc) (hne : e.corpus ≠ [])
    (htopk : 1 ≤ topk) (hq : RAGEngine.query c e text topk = .ok res) :
    res.length = min topk.toNat e.corpus.length := by
  rcases query_ok_cases hq with ⟨hearly, rfl⟩ | ⟨tc', qv, _, _, _, rfl⟩
  · rcases hearly with hnone | hempty
    · rw [hbm] at hnone
      exact Option.noConfusion hnone
    · exact absurd (by simpa [List.isEmpty_iff] using hempty) hne
  · rw [queryWith_length]
    rw [if_pos (by omega : (0:Int) ≤ topk)]

/-- C10, witness at a concrete input (corpus of one document, `top_k = 5`,
a query matching nothing). -/
theorem C10_witness :
    ([(⟨"0", "a", 0, "en", []⟩ : RetrievedChunk)] : List RetrievedChunk).length =
      min ((5:Int).toNat) engineOne.corpus.length :=
  C10_result_count collabZero engineOne [["a"]] "x" 5 _ rfl (by decide)
    (by decide) rfl
